import Mathlib

/-!
Shallow embedding of the batch image-conversion app (`src/App.tsx`) and
verification of the behavioural claims about its queue, batch orchestrator,
download naming and archive building.

The conversion pipeline (`processImageClientSide`, in
`services/imageProcessing`) and the AI annotation call (`analyzeImage`, in
`services/geminiService`) are not part of `src/`; they enter the model as
oracle parameters: a conversion oracle returning `some bytes` on success and
`none` for a thrown error, and an AI oracle returning `some analysis` or
`none` for any failure inside the `try` block (including `blobToBase64`).
Object URLs (`URL.createObjectURL` / `URL.revokeObjectURL`) are modelled as
natural-number handles drawn from a counter; item ids (the source's
`generateId`, an opaque unique identifier) are likewise drawn from a counter.
-/

namespace ConvertSimply

/-- Lifecycle status of a queue item (`AppStatus` in `types.ts`). -/
inductive AppStatus
  | IDLE
  | PROCESSING
  | COMPLETE
  | ERROR
deriving DecidableEq

/-- An input file as delivered by the file picker / drop handler:
name, MIME type (`file.type` in the source), byte size, and raw bytes. -/
structure InputFile where
  name : String
  mimeType : String
  size : Nat
  bytes : List Nat
deriving DecidableEq

/-- `ProcessedResult` (`types.ts`): output of a successful conversion.
`blob` is the output bytes, `url` the object-URL handle created for it. -/
structure ProcessedResult where
  blob : List Nat
  url : Nat
  size : Nat
  aiDescription : String
  aiTags : List String
deriving DecidableEq

/-- `QueueItem` (`types.ts`): one unit of work.  `previewUrl` is the
object-URL handle created at intake; `result` and `error` start absent. -/
structure QueueItem where
  id : Nat
  file : InputFile
  previewUrl : Nat
  originalSize : Nat
  status : AppStatus
  result : Option ProcessedResult := none
  error : Option String := none
deriving DecidableEq

/-- `ConversionSettings` (`types.ts`): immutable-per-run configuration. -/
structure ConversionSettings where
  format : String
  quality : Rat
  resizeRatio : Rat
  useAIAnalysis : Bool
  isVector : Bool
  colorCount : Nat
deriving DecidableEq

/-- Result of the AI annotation call (`analyzeImage`). -/
structure AiAnalysis where
  description : String
  tags : List String
deriving DecidableEq

/-- Oracle for the external conversion pipeline `processImageClientSide`:
`none` models a thrown error for that file under those settings. -/
abbrev ConvOracle := InputFile → ConversionSettings → Option (List Nat)

/-- Oracle for the external AI annotation call; `none` models any throw
inside the inner `try` block of `processBatch`. -/
abbrev AiOracle := InputFile → Option AiAnalysis

/-- Ambient application state relevant to the queue: the queue itself, the
id and object-URL counters, and a ledger of every URL handle created and
released (for the resource-release claims). -/
structure AppState where
  queue : List QueueItem
  nextId : Nat
  nextUrl : Nat
  createdUrls : List Nat
  releasedUrls : List Nat
deriving DecidableEq

/-- The empty initial state (`useState<QueueItem[]>([])`). -/
def initState : AppState :=
  { queue := [], nextId := 0, nextUrl := 0, createdUrls := [], releasedUrls := [] }

/-- MIME filter used by `handleFiles`: `file.type.startsWith('image/')`,
modelled as a character-level prefix test. -/
def isImageFile (f : InputFile) : Bool :=
  "image/".toList.isPrefixOf f.mimeType.toList

/-- The fresh `QueueItem`s built by `handleFiles` from the image files,
with ids from `i0` and preview handles from `u0`. -/
def mkItems : List InputFile → Nat → Nat → List QueueItem
  | [], _, _ => []
  | f :: fs, i0, u0 =>
      { id := i0, file := f, previewUrl := u0, originalSize := f.size,
        status := AppStatus.IDLE } :: mkItems fs (i0 + 1) (u0 + 1)

/-- `handleFiles` (`App.tsx` lines 50-62): `null` input returns unchanged;
otherwise the image-typed files are mapped to fresh Idle items appended at
the end of the queue.  Preview-URL creation is recorded in the ledger. -/
def handleFiles (files : Option (List InputFile)) (st : AppState) : AppState :=
  match files with
  | none => st
  | some fs =>
      let imgs := fs.filter isImageFile
      let items := mkItems imgs st.nextId st.nextUrl
      { st with
          queue := st.queue ++ items
          nextId := st.nextId + imgs.length
          nextUrl := st.nextUrl + imgs.length
          createdUrls := st.createdUrls ++ items.map (fun it => it.previewUrl) }

/-- The object-URL handles owned by an item: its preview handle plus, when
a result is present, the result's output handle. -/
def itemUrls (it : QueueItem) : List Nat :=
  it.previewUrl :: (match it.result with
    | some r => [r.url]
    | none => [])

/-- `removeItem` (`App.tsx` lines 74-81): finds the first item with the id,
revokes its preview URL and (when present) its result URL, and filters the
queue down to items with a different id.  When the id is absent nothing is
revoked and the filter leaves the queue unchanged. -/
def removeItem (id : Nat) (st : AppState) : AppState :=
  match st.queue.find? (fun i => i.id == id) with
  | none => { st with queue := st.queue.filter (fun i => i.id != id) }
  | some it =>
      { st with
          queue := st.queue.filter (fun i => i.id != id)
          releasedUrls := st.releasedUrls ++ itemUrls it }

/-- `clearQueue` (`App.tsx` lines 83-89): revokes every item's handles and
empties the queue. -/
def clearQueue (st : AppState) : AppState :=
  { st with
      queue := []
      releasedUrls := st.releasedUrls ++ st.queue.flatMap itemUrls }

/-- Pending test used by `processBatch` (`App.tsx` line 92):
status is `IDLE` or `ERROR`. -/
def isPending (it : QueueItem) : Bool :=
  match it.status with
  | AppStatus.IDLE => true
  | AppStatus.ERROR => true
  | _ => false

/-- `itemsToProcess` snapshot: the pending items, in queue order. -/
def selectPending (q : List QueueItem) : List QueueItem := q.filter isPending

/-- One `setQueue` update issued by `processBatch`: the initial marking of
the whole snapshot as Processing, or one item's terminal update. -/
inductive Upd
  | markProcessing (ids : List Nat)
  | markComplete (id : Nat) (res : ProcessedResult)
  | markError (id : Nat) (msg : String)
deriving DecidableEq

/-- The body of the batch Processing-marking map (`App.tsx` lines 95-97):
an item in the snapshot (matched by id) becomes Processing, others are
untouched. -/
def markFn (ids : List Nat) (it : QueueItem) : QueueItem :=
  if ids.contains it.id then { it with status := AppStatus.PROCESSING } else it

/-- Apply one `setQueue` updater to a queue value, exactly as the three
`setQueue(prev => prev.map(...))` calls in `processBatch` do: the map
touches only items whose id matches, and a terminal update spreads the
existing item, so fields it does not set (such as a stale `error` on a
completing item) are preserved. -/
def applyUpd (q : List QueueItem) : Upd → List QueueItem
  | Upd.markProcessing ids => q.map (markFn ids)
  | Upd.markComplete i res =>
      q.map (fun it =>
        if it.id == i then { it with status := AppStatus.COMPLETE, result := some res } else it)
  | Upd.markError i msg =>
      q.map (fun it =>
        if it.id == i then { it with status := AppStatus.ERROR, error := some msg } else it)

/-- The item ids an update can touch: its map leaves every item whose id
is not in this list unchanged. -/
def updIds : Upd → List Nat
  | Upd.markProcessing ids => ids
  | Upd.markComplete i _ => [i]
  | Upd.markError i _ => [i]

/-- The description and tags assembled for a converted item: empty unless
`useAIAnalysis` is on and the AI call succeeds (its failure is caught). -/
def annotate (ai : AiOracle) (s : ConversionSettings) (f : InputFile) :
    String × List String :=
  if s.useAIAnalysis then
    match ai f with
    | some a => (a.description, a.tags)
    | none => ("", [])
  else ("", [])

/-- The terminal `setQueue` updates of the per-item loop of `processBatch`
(`App.tsx` lines 99-130), for the snapshot items in order.  `u` is the
object-URL counter: a fresh handle is created for each successful
conversion's blob, none for a failed one. -/
def itemScript (conv : ConvOracle) (ai : AiOracle) (s : ConversionSettings) :
    List QueueItem → Nat → List Upd
  | [], _ => []
  | it :: rest, u =>
      match conv it.file s with
      | some blob =>
          let a := annotate ai s it.file
          Upd.markComplete it.id
              { blob := blob, url := u, size := blob.length,
                aiDescription := a.1, aiTags := a.2 }
            :: itemScript conv ai s rest (u + 1)
      | none => Upd.markError it.id "Failed" :: itemScript conv ai s rest u

/-- The full sequence of `setQueue` updates issued by one `processBatch`
call on a queue whose snapshot is taken at entry: nothing when the pending
snapshot is empty (the early return), otherwise the batch Processing
marking followed by the per-item terminal updates in snapshot order. -/
def batchScript (conv : ConvOracle) (ai : AiOracle) (s : ConversionSettings)
    (q : List QueueItem) (u0 : Nat) : List Upd :=
  if (selectPending q).isEmpty then []
  else
    Upd.markProcessing ((selectPending q).map (fun it => it.id))
      :: itemScript conv ai s (selectPending q) u0

/-- `processBatch` (`App.tsx` lines 91-131) as a queue transformer: the
sequential application of every `setQueue` update it issues. -/
def processBatch (conv : ConvOracle) (ai : AiOracle) (s : ConversionSettings)
    (q : List QueueItem) (u0 : Nat) : List QueueItem :=
  (batchScript conv ai s q u0).foldl applyUpd q

/-- The queue value observed after the first `t` `setQueue` updates of a
`processBatch` run: `t = 0` is the initial queue, `t = 1` follows the batch
Processing marking, and `t = 1 + j` follows the `j`-th item's terminal
update. -/
def batchState (conv : ConvOracle) (ai : AiOracle) (s : ConversionSettings)
    (q : List QueueItem) (u0 : Nat) (t : Nat) : List QueueItem :=
  ((batchScript conv ai s q u0).take t).foldl applyUpd q

/-- Closed form of what one `processBatch` run does to a single pending
item `it` when the url counter stands at `u`: conversion success yields
Complete with the assembled result, failure yields Error with the generic
message; all other fields are carried over (in particular a stale `error`
survives a successful retry). -/
def finishItem (conv : ConvOracle) (ai : AiOracle) (s : ConversionSettings)
    (u : Nat) (it : QueueItem) : QueueItem :=
  match conv it.file s with
  | some blob =>
      let a := annotate ai s it.file
      { it with
          status := AppStatus.COMPLETE
          result := some { blob := blob, url := u, size := blob.length,
                           aiDescription := a.1, aiTags := a.2 } }
  | none => { it with status := AppStatus.ERROR, error := some "Failed" }

/-- `1` when the conversion oracle succeeds on the item (one object URL is
created), `0` otherwise. -/
def convCost (conv : ConvOracle) (s : ConversionSettings) (it : QueueItem) : Nat :=
  match conv it.file s with
  | some _ => 1
  | none => 0

/-- Reference model of a whole `processBatch` run: each pending item is
finished in place (with its url handle counted off the successes so far),
every other item is untouched. -/
def runModel (conv : ConvOracle) (ai : AiOracle) (s : ConversionSettings) :
    List QueueItem → Nat → List QueueItem
  | [], _ => []
  | it :: rest, u =>
      if isPending it then
        finishItem conv ai s u it
          :: runModel conv ai s rest (u + convCost conv s it)
      else it :: runModel conv ai s rest u

/-- The terminal update that the per-item loop applies, keyed by the
snapshot item `src` it was computed from, acting on the current queue
entry `it` with the same id (the `{ ...i, ... }` spread). -/
def finishWith (conv : ConvOracle) (ai : AiOracle) (s : ConversionSettings)
    (src : QueueItem) (u : Nat) (it : QueueItem) : QueueItem :=
  match conv src.file s with
  | some blob =>
      let a := annotate ai s src.file
      { it with
          status := AppStatus.COMPLETE
          result := some { blob := blob, url := u, size := blob.length,
                           aiDescription := a.1, aiTags := a.2 } }
  | none => { it with status := AppStatus.ERROR, error := some "Failed" }

/-- Net effect on one queue entry of the whole per-item update sequence
generated from the snapshot list `l` with url counter `u`: the first
snapshot item sharing the entry's id determines its terminal update. -/
def patchAll (conv : ConvOracle) (ai : AiOracle) (s : ConversionSettings) :
    List QueueItem → Nat → QueueItem → QueueItem
  | [], _, it => it
  | src :: rest, u, it =>
      if it.id == src.id then finishWith conv ai s src u it
      else patchAll conv ai s rest (u + convCost conv s src) it

/-- Reference model of the queue after the Processing marking and the
first `j` per-item updates of a batch run: the first `j` pending items are
finished, the remaining pending items sit at Processing, everything else
is untouched. -/
def stepModel (conv : ConvOracle) (ai : AiOracle) (s : ConversionSettings) :
    Nat → List QueueItem → Nat → List QueueItem
  | _, [], _ => []
  | 0, it :: rest, u =>
      if isPending it then
        { it with status := AppStatus.PROCESSING } :: stepModel conv ai s 0 rest u
      else it :: stepModel conv ai s 0 rest u
  | j + 1, it :: rest, u =>
      if isPending it then
        finishItem conv ai s u it :: stepModel conv ai s j rest (u + convCost conv s it)
      else it :: stepModel conv ai s (j + 1) rest u

/-- Number of pending items strictly before position `k` in the queue
(an item's index in the batch snapshot). -/
def pendBefore : List QueueItem → Nat → Nat
  | _, 0 => 0
  | [], _ + 1 => 0
  | it :: rest, k + 1 => (if isPending it then 1 else 0) + pendBefore rest k

/-- Number of successful conversions among pending items strictly before
position `k` (how many object URLs the loop has created by then). -/
def succBefore (conv : ConvOracle) (s : ConversionSettings) :
    List QueueItem → Nat → Nat
  | _, 0 => 0
  | [], _ + 1 => 0
  | it :: rest, k + 1 =>
      (if isPending it then convCost conv s it else 0) + succBefore conv s rest k

/-- JavaScript's `String.split` on a single separator character, modelled
on character lists: splitting the empty string yields `[""]`, and a
trailing separator yields a trailing empty field. -/
def splitOnChar (c : Char) : List Char → List (List Char)
  | [] => [[]]
  | x :: xs =>
      if x = c then [] :: splitOnChar c xs
      else
        match splitOnChar c xs with
        | [] => [[x]]
        | w :: ws => (x :: w) :: ws

/-- `getExtension` (`App.tsx` lines 133-137): the MIME subtype
(`format.split('/')[1]`), with the single special case `svg+xml` → `svg`.
Every format the source uses contains a `/`, so the index-1 field exists. -/
def getExtension (s : ConversionSettings) : String :=
  let ext := String.mk (((splitOnChar (Char.ofNat 47) s.format.toList).drop 1).headD [])
  if ext = "svg+xml" then "svg" else ext

/-- The base name used for download filenames:
`file.name.split('.')[0]`, i.e. everything before the first dot. -/
def baseName (n : String) : String :=
  String.mk ((splitOnChar (Char.ofNat 46) n.toList).headD [])

/-- The download filename built for an item
(`App.tsx` line 143 and line 158). -/
def suggestedName (s : ConversionSettings) (it : QueueItem) : String :=
  baseName it.file.name ++ "_converted." ++ getExtension s

/-- `downloadFile` (`App.tsx` lines 139-147): `none` when the item has no
result (the early return), otherwise the pair of the result's URL handle
and the suggested filename. -/
def downloadFile (s : ConversionSettings) (it : QueueItem) :
    Option (Nat × String) :=
  match it.result with
  | none => none
  | some r => some (r.url, suggestedName s it)

/-- `zip.file(name, data)` of JSZip: a same-named entry is replaced in
place (silent overwrite), otherwise the entry is appended. -/
def zipAdd (entries : List (String × List Nat)) (name : String)
    (data : List Nat) : List (String × List Nat) :=
  if entries.any (fun e => e.1 == name) then
    entries.map (fun e => if e.1 == name then (name, data) else e)
  else entries ++ [(name, data)]

/-- Completion test used by `downloadAll` (`App.tsx` line 150):
status Complete and a result present. -/
def isCompleted (it : QueueItem) : Bool :=
  match it.status, it.result with
  | AppStatus.COMPLETE, some _ => true
  | _, _ => false

/-- The archive built by `downloadAll` from a list of completed items: one
`zip.file` call per item with its suggested name and result blob. -/
def buildArchive (s : ConversionSettings) (items : List QueueItem) :
    List (String × List Nat) :=
  items.foldl (fun z it =>
    match it.result with
    | some r => zipAdd z (suggestedName s it) r.blob
    | none => z) []

/-- `downloadAll` (`App.tsx` lines 149-174): `none` when no item is
completed (the early return), otherwise the archive entries built from the
completed items together with the archive's download name. -/
def downloadAll (s : ConversionSettings) (q : List QueueItem) :
    Option (List (String × List Nat) × String) :=
  let completedItems := q.filter isCompleted
  if completedItems.isEmpty then none
  else some (buildArchive s completedItems, "cleave_batch.zip")

/-- A queue-management operation: file intake, removal of one item by id,
or clearing the queue. -/
inductive Op
  | intake (files : Option (List InputFile))
  | remove (id : Nat)
  | clear
deriving DecidableEq

/-- Apply one queue-management operation to the application state. -/
def applyOp (st : AppState) : Op → AppState
  | Op.intake files => handleFiles files st
  | Op.remove id => removeItem id st
  | Op.clear => clearQueue st

/-- Run a sequence of queue-management operations from the empty initial
state. -/
def runOps (ops : List Op) : AppState :=
  ops.foldl applyOp initState

/-- Queues reachable by the application: from the empty queue via intake
(with ids fresh for the current queue, as the id generator guarantees),
item removal, clearing, and batch runs with arbitrary oracles, settings
and url counter. -/
inductive ReachQ : List QueueItem → Prop
  | nil : ReachQ []
  | intake (q : List QueueItem) (fs : List InputFile) (i0 u0 : Nat)
      (hq : ReachQ q) (hfresh : ∀ it ∈ q, it.id < i0) :
      ReachQ (q ++ mkItems (fs.filter isImageFile) i0 u0)
  | remove (q : List QueueItem) (id : Nat) (hq : ReachQ q) :
      ReachQ (q.filter (fun i => i.id != id))
  | clear (q : List QueueItem) (hq : ReachQ q) : ReachQ []
  | batch (q : List QueueItem) (conv : ConvOracle) (ai : AiOracle)
      (s : ConversionSettings) (u0 : Nat) (hq : ReachQ q) :
      ReachQ (processBatch conv ai s q u0)

/-- Per-item field invariant that actually holds on reachable queues:
`result` is present exactly on Complete items, an Error item always
carries a message, and an Idle item carries neither field.  (A stale
`error` may survive on a Complete item after a successful retry.) -/
def ItemInv (it : QueueItem) : Prop :=
  (it.result.isSome = true ↔ it.status = AppStatus.COMPLETE) ∧
  (it.status = AppStatus.ERROR → it.error.isSome = true) ∧
  (it.status = AppStatus.IDLE → it.result = none ∧ it.error = none)

/-- State invariant maintained by the queue-management operations: ids are
unique and below the id counter, created URL handles are distinct and
below the URL counter, and the created handles are exactly the released
handles plus the handles still owned by queued items. -/
def StInv (st : AppState) : Prop :=
  (st.queue.map (fun it => it.id)).Nodup ∧
  (∀ it ∈ st.queue, it.id < st.nextId) ∧
  st.createdUrls.Nodup ∧
  (∀ u ∈ st.createdUrls, u < st.nextUrl) ∧
  (∀ it ∈ st.queue, ∀ u ∈ itemUrls it, u ∈ st.createdUrls) ∧
  st.createdUrls.Perm (st.releasedUrls ++ st.queue.flatMap itemUrls)

/-! Concrete fixtures used by witnesses and counterexamples. -/

/-- A valid image file. -/
def fileA : InputFile :=
  { name := "photo.png", mimeType := "image/png", size := 3, bytes := [1, 2, 3] }

/-- A corrupted file carrying an image MIME type. -/
def fileBad : InputFile :=
  { name := "bad.png", mimeType := "image/png", size := 2, bytes := [9, 9] }

/-- Another valid image file. -/
def fileC : InputFile :=
  { name := "scan.jpeg", mimeType := "image/jpeg", size := 1, bytes := [5] }

/-- A non-image file, to be dropped at intake. -/
def fileTxt : InputFile :=
  { name := "notes.txt", mimeType := "text/plain", size := 4, bytes := [0, 0, 0, 0] }

/-- Conversion oracle that succeeds on everything, echoing the bytes. -/
def convAll : ConvOracle := fun f _ => some f.bytes

/-- Conversion oracle that always throws. -/
def convNone : ConvOracle := fun _ _ => none

/-- Conversion oracle that throws exactly on the corrupted file. -/
def convSel : ConvOracle := fun f _ =>
  if f.name = "bad.png" then none else some f.bytes

/-- AI oracle that always fails. -/
def aiFail : AiOracle := fun _ => none

/-- AI oracle that always succeeds. -/
def aiOk : AiOracle :=
  fun _ => some { description := "a photo", tags := ["tag"] }

/-- JPEG raster settings, AI analysis off (the source's defaults). -/
def sJpeg : ConversionSettings :=
  { format := "image/jpeg", quality := 4/5, resizeRatio := 1,
    useAIAnalysis := false, isVector := false, colorCount := 16 }

/-- JPEG raster settings with AI analysis enabled. -/
def sJpegAI : ConversionSettings :=
  { format := "image/jpeg", quality := 4/5, resizeRatio := 1,
    useAIAnalysis := true, isVector := false, colorCount := 16 }

/-- A three-item queue built at intake from a valid, a corrupted, and a
second valid file (ids 0, 1, 2; preview handles 10, 11, 12). -/
def qW : List QueueItem := mkItems [fileA, fileBad, fileC] 0 10

/-- A completed item whose original name is `dup.png`. -/
def itemDupA : QueueItem :=
  { id := 0, file := { name := "dup.png", mimeType := "image/png", size := 1, bytes := [1] },
    previewUrl := 20, originalSize := 1, status := AppStatus.COMPLETE,
    result := some { blob := [1], url := 30, size := 1,
                     aiDescription := "", aiTags := [] } }

/-- A completed item whose original name is `dup.jpg` — same base name as
`itemDupA`, so the two collide in the archive. -/
def itemDupB : QueueItem :=
  { id := 1, file := { name := "dup.jpg", mimeType := "image/jpeg", size := 1, bytes := [2] },
    previewUrl := 21, originalSize := 1, status := AppStatus.COMPLETE,
    result := some { blob := [2], url := 31, size := 1,
                     aiDescription := "", aiTags := [] } }

/-- A Complete item with a result, for frame and no-op witnesses. -/
def itemDone : QueueItem :=
  { id := 5, file := fileA, previewUrl := 40, originalSize := 3,
    status := AppStatus.COMPLETE,
    result := some { blob := [1, 2, 3], url := 41, size := 3,
                     aiDescription := "", aiTags := [] } }

/-- An Idle item, for frame witnesses. -/
def itemIdle : QueueItem :=
  { id := 6, file := fileC, previewUrl := 42, originalSize := 1,
    status := AppStatus.IDLE }

/-- A queue mixing a Complete and an Idle item. -/
def qMix : List QueueItem := [itemDone, itemIdle]

/-! Helper lemmas. -/

theorem mem_of_getElem?_eq {α : Type} (l : List α) (n : Nat) (a : α)
    (h : l[n]? = some a) : a ∈ l := by
  obtain ⟨hn, rfl⟩ := List.getElem?_eq_some.mp h
  exact List.getElem_mem ..

theorem isPending_iff (it : QueueItem) :
    isPending it = true ↔ it.status = AppStatus.IDLE ∨ it.status = AppStatus.ERROR := by
  cases h : it.status <;> simp [isPending, h]

theorem markFn_id (ids : List Nat) (it : QueueItem) : (markFn ids it).id = it.id := by
  unfold markFn; split <;> rfl

theorem finishWith_id (conv : ConvOracle) (ai : AiOracle) (s : ConversionSettings)
    (src : QueueItem) (u : Nat) (it : QueueItem) :
    (finishWith conv ai s src u it).id = it.id := by
  unfold finishWith; cases conv src.file s <;> rfl

theorem finishItem_id (conv : ConvOracle) (ai : AiOracle) (s : ConversionSettings)
    (u : Nat) (it : QueueItem) : (finishItem conv ai s u it).id = it.id := by
  unfold finishItem; cases conv it.file s <;> rfl

theorem finishWith_mark (conv : ConvOracle) (ai : AiOracle) (s : ConversionSettings)
    (u : Nat) (it : QueueItem) :
    finishWith conv ai s it u { it with status := AppStatus.PROCESSING }
      = finishItem conv ai s u it := by
  unfold finishWith finishItem; cases conv it.file s <;> rfl

theorem patchAll_not_mem (conv : ConvOracle) (ai : AiOracle) (s : ConversionSettings) :
    ∀ (l : List QueueItem) (u : Nat) (it : QueueItem),
      it.id ∉ l.map (fun x => x.id) → patchAll conv ai s l u it = it
  | [], _, _, _ => rfl
  | src :: rest, u, it, h => by
      simp only [List.map_cons, List.mem_cons] at h
      push_neg at h
      unfold patchAll
      rw [if_neg (by simpa using h.1)]
      exact patchAll_not_mem conv ai s rest _ it h.2

theorem selectPending_cons (x : QueueItem) (l : List QueueItem) :
    selectPending (x :: l)
      = if isPending x then x :: selectPending l else selectPending l := by
  simp [selectPending, List.filter_cons]

theorem selectPending_sublist (q : List QueueItem) : (selectPending q).Sublist q :=
  List.filter_sublist q

theorem selectPending_ids_subset (q : List QueueItem) :
    ∀ a ∈ (selectPending q).map (fun it => it.id), a ∈ q.map (fun it => it.id) :=
  fun _ ha => ((selectPending_sublist q).map (fun it => it.id)).subset ha

theorem not_pending_id_not_mem (q : List QueueItem)
    (hnd : (q.map (fun it => it.id)).Nodup) (it : QueueItem) (hit : it ∈ q)
    (hp : isPending it = false) :
    it.id ∉ (selectPending q).map (fun x => x.id) := by
  intro hmem
  rcases List.mem_map.mp hmem with ⟨y, hy, hyid⟩
  have hyq : y ∈ q := (selectPending_sublist q).subset hy
  have hyp : isPending y = true := (List.mem_filter.mp hy).2
  have : y = it := List.inj_on_of_nodup_map hnd hyq hit hyid
  rw [this] at hyp
  rw [hyp] at hp
  exact Bool.noConfusion hp

theorem patchAll_cons (conv : ConvOracle) (ai : AiOracle) (s : ConversionSettings)
    (src : QueueItem) (rest : List QueueItem) (u : Nat) (it : QueueItem) :
    patchAll conv ai s (src :: rest) u it
      = if it.id == src.id then finishWith conv ai s src u it
        else patchAll conv ai s rest (u + convCost conv s src) it := rfl

theorem foldl_itemScript (conv : ConvOracle) (ai : AiOracle) (s : ConversionSettings) :
    ∀ (l : List QueueItem), (l.map (fun it => it.id)).Nodup →
      ∀ (q : List QueueItem) (u : Nat),
        (itemScript conv ai s l u).foldl applyUpd q = q.map (patchAll conv ai s l u)
  | [], _, q, u => by
      have h : patchAll conv ai s [] u = fun it => it := funext fun it => rfl
      simp [itemScript, h]
  | src :: rest, hnd, q, u => by
      have hnd' : (rest.map (fun it => it.id)).Nodup := by
        simp only [List.map_cons, List.nodup_cons] at hnd; exact hnd.2
      have hsrc : src.id ∉ rest.map (fun it => it.id) := by
        simp only [List.map_cons, List.nodup_cons] at hnd; exact hnd.1
      cases hc : conv src.file s with
      | some blob =>
          have key : ∀ x : QueueItem,
              patchAll conv ai s rest (u + 1)
                  (if x.id == src.id then finishWith conv ai s src u x else x)
                = patchAll conv ai s (src :: rest) u x := by
            intro x
            by_cases hx : x.id = src.id
            · simp only [hx, beq_self_eq_true, if_pos]
              have hid : (finishWith conv ai s src u x).id = x.id :=
                finishWith_id ..
              rw [patchAll_not_mem conv ai s rest (u + 1) _ (by rw [hid, hx]; exact hsrc)]
              rw [patchAll_cons, if_pos (by simp [hx])]
            · have hb : (x.id == src.id) = false := beq_eq_false_iff_ne.mpr hx
              rw [if_neg (by simp [hb]), patchAll_cons, if_neg (by simp [hb])]
              rw [show convCost conv s src = 1 from by simp [convCost, hc]]
          simp only [itemScript, hc, List.foldl_cons]
          have happly : applyUpd q (Upd.markComplete src.id
              { blob := blob, url := u, size := blob.length,
                aiDescription := (annotate ai s src.file).1,
                aiTags := (annotate ai s src.file).2 })
              = q.map (fun x => if x.id == src.id then finishWith conv ai s src u x else x) := by
            unfold applyUpd
            refine List.map_congr_left fun x _ => ?_
            unfold finishWith
            rw [hc]
          rw [happly, foldl_itemScript conv ai s rest hnd' _ (u + 1), List.map_map]
          exact List.map_congr_left fun x _ => key x
      | none =>
          have key : ∀ x : QueueItem,
              patchAll conv ai s rest u
                  (if x.id == src.id then finishWith conv ai s src u x else x)
                = patchAll conv ai s (src :: rest) u x := by
            intro x
            by_cases hx : x.id = src.id
            · simp only [hx, beq_self_eq_true, if_pos]
              have hid : (finishWith conv ai s src u x).id = x.id :=
                finishWith_id ..
              rw [patchAll_not_mem conv ai s rest u _ (by rw [hid, hx]; exact hsrc)]
              rw [patchAll_cons, if_pos (by simp [hx])]
            · have hb : (x.id == src.id) = false := beq_eq_false_iff_ne.mpr hx
              rw [if_neg (by simp [hb]), patchAll_cons, if_neg (by simp [hb])]
              rw [show convCost conv s src = 0 from by simp [convCost, hc], Nat.add_zero]
          simp only [itemScript, hc, List.foldl_cons]
          have happly : applyUpd q (Upd.markError src.id "Failed")
              = q.map (fun x => if x.id == src.id then finishWith conv ai s src u x else x) := by
            unfold applyUpd
            refine List.map_congr_left fun x _ => ?_
            unfold finishWith
            rw [hc]
          rw [happly, foldl_itemScript conv ai s rest hnd' _ u, List.map_map]
          exact List.map_congr_left fun x _ => key x

theorem patchAll_nil (conv : ConvOracle) (ai : AiOracle) (s : ConversionSettings)
    (u : Nat) (it : QueueItem) : patchAll conv ai s [] u it = it := rfl

theorem markFn_cons_ne (i : Nat) (ids : List Nat) (y : QueueItem)
    (h : y.id ≠ i) : markFn (i :: ids) y = markFn ids y := by
  unfold markFn
  have : ((i :: ids).contains y.id) = (ids.contains y.id) := by simp [h]
  rw [this]

theorem map_patch_eq_stepModel (conv : ConvOracle) (ai : AiOracle) (s : ConversionSettings) :
    ∀ (q : List QueueItem) (u j : Nat), (q.map (fun it => it.id)).Nodup →
      q.map (fun x =>
          patchAll conv ai s ((selectPending q).take j) u
            (markFn ((selectPending q).map (fun it => it.id)) x))
        = stepModel conv ai s j q u
  | [], u, j, _ => by cases j <;> rfl
  | x :: rest, u, j, hnd => by
      have hnd' : (rest.map (fun it => it.id)).Nodup := by
        simp only [List.map_cons, List.nodup_cons] at hnd; exact hnd.2
      have hx : x.id ∉ rest.map (fun it => it.id) := by
        simp only [List.map_cons, List.nodup_cons] at hnd; exact hnd.1
      cases hp : isPending x with
      | false =>
          have hsel : selectPending (x :: rest) = selectPending rest := by
            rw [selectPending_cons, if_neg (by simp [hp])]
          have hxid : x.id ∉ (selectPending rest).map (fun it => it.id) :=
            fun hmem => hx (selectPending_ids_subset rest _ hmem)
          have htsub : ∀ a ∈ ((selectPending rest).take j).map (fun it => it.id),
              a ∈ (selectPending rest).map (fun it => it.id) := by
            rw [List.map_take]; exact fun a ha => List.take_subset _ _ ha
          have hhead : patchAll conv ai s ((selectPending rest).take j) u
              (markFn ((selectPending rest).map (fun it => it.id)) x) = x := by
            rw [show markFn ((selectPending rest).map (fun it => it.id)) x = x from by
              unfold markFn; rw [if_neg (by simpa using hxid)]]
            exact patchAll_not_mem conv ai s _ u x fun hmem => hxid (htsub _ hmem)
          rw [List.map_cons, hsel, hhead,
            map_patch_eq_stepModel conv ai s rest u j hnd']
          cases j with
          | zero => rw [show stepModel conv ai s 0 (x :: rest) u
                = x :: stepModel conv ai s 0 rest u from by simp [stepModel, hp]]
          | succ j' => rw [show stepModel conv ai s (j' + 1) (x :: rest) u
                = x :: stepModel conv ai s (j' + 1) rest u from by simp [stepModel, hp]]
      | true =>
          have hsel : selectPending (x :: rest) = x :: selectPending rest := by
            rw [selectPending_cons, if_pos (by simp [hp])]
          rw [List.map_cons, hsel]
          cases j with
          | zero =>
              have hhead : patchAll conv ai s ((x :: selectPending rest).take 0) u
                  (markFn ((x :: selectPending rest).map (fun it => it.id)) x)
                  = { x with status := AppStatus.PROCESSING } := by
                simp only [List.take_zero, patchAll_nil]
                unfold markFn
                rw [if_pos (by simp)]
              have htail : rest.map (fun y =>
                  patchAll conv ai s ((x :: selectPending rest).take 0) u
                    (markFn ((x :: selectPending rest).map (fun it => it.id)) y))
                  = stepModel conv ai s 0 rest u := by
                rw [← map_patch_eq_stepModel conv ai s rest u 0 hnd']
                refine List.map_congr_left fun y hy => ?_
                have hyx : y.id ≠ x.id :=
                  fun h => hx (h ▸ List.mem_map.mpr ⟨y, hy, rfl⟩)
                simp only [List.take_zero, patchAll_nil, List.map_cons]
                exact markFn_cons_ne x.id _ y hyx
              rw [hhead, htail,
                show stepModel conv ai s 0 (x :: rest) u
                  = { x with status := AppStatus.PROCESSING } :: stepModel conv ai s 0 rest u
                  from by simp [stepModel, hp]]
          | succ j' =>
              have hhead : patchAll conv ai s ((x :: selectPending rest).take (j' + 1)) u
                  (markFn ((x :: selectPending rest).map (fun it => it.id)) x)
                  = finishItem conv ai s u x := by
                rw [List.take_succ_cons,
                  show markFn ((x :: selectPending rest).map (fun it => it.id)) x
                    = { x with status := AppStatus.PROCESSING } from by
                      unfold markFn; rw [if_pos (by simp)],
                  patchAll_cons, if_pos (by simp), finishWith_mark]
              have htail : rest.map (fun y =>
                  patchAll conv ai s ((x :: selectPending rest).take (j' + 1)) u
                    (markFn ((x :: selectPending rest).map (fun it => it.id)) y))
                  = stepModel conv ai s j' rest (u + convCost conv s x) := by
                rw [← map_patch_eq_stepModel conv ai s rest (u + convCost conv s x) j' hnd']
                refine List.map_congr_left fun y hy => ?_
                have hyx : y.id ≠ x.id :=
                  fun h => hx (h ▸ List.mem_map.mpr ⟨y, hy, rfl⟩)
                rw [List.take_succ_cons, List.map_cons, markFn_cons_ne x.id _ y hyx,
                  patchAll_cons, if_neg (by simp [markFn_id, hyx])]
              rw [hhead, htail,
                show stepModel conv ai s (j' + 1) (x :: rest) u
                  = finishItem conv ai s u x
                      :: stepModel conv ai s j' rest (u + convCost conv s x)
                  from by simp [stepModel, hp]]

theorem itemScript_length (conv : ConvOracle) (ai : AiOracle) (s : ConversionSettings) :
    ∀ (l : List QueueItem) (u : Nat), (itemScript conv ai s l u).length = l.length
  | [], _ => rfl
  | it :: rest, u => by
      cases hc : conv it.file s <;>
        simp [itemScript, hc, itemScript_length conv ai s rest]

theorem itemScript_take (conv : ConvOracle) (ai : AiOracle) (s : ConversionSettings) :
    ∀ (l : List QueueItem) (u j : Nat),
      (itemScript conv ai s l u).take j = itemScript conv ai s (l.take j) u
  | [], u, j => by simp [itemScript]
  | it :: rest, u, 0 => by simp [itemScript]
  | it :: rest, u, j + 1 => by
      cases hc : conv it.file s <;>
        simp [itemScript, hc, List.take_succ_cons, itemScript_take conv ai s rest _ j]

theorem stepModel_full (conv : ConvOracle) (ai : AiOracle) (s : ConversionSettings) :
    ∀ (q : List QueueItem) (u j : Nat), (selectPending q).length ≤ j →
      stepModel conv ai s j q u = runModel conv ai s q u
  | [], u, j, _ => by cases j <;> rfl
  | x :: rest, u, j, h => by
      cases hp : isPending x with
      | false =>
          have h' : (selectPending rest).length ≤ j := by
            rw [selectPending_cons, if_neg (by simp [hp])] at h; exact h
          cases j with
          | zero =>
              rw [show stepModel conv ai s 0 (x :: rest) u
                    = x :: stepModel conv ai s 0 rest u from by simp [stepModel, hp],
                show runModel conv ai s (x :: rest) u
                    = x :: runModel conv ai s rest u from by simp [runModel, hp],
                stepModel_full conv ai s rest u 0 h']
          | succ j' =>
              rw [show stepModel conv ai s (j' + 1) (x :: rest) u
                    = x :: stepModel conv ai s (j' + 1) rest u from by simp [stepModel, hp],
                show runModel conv ai s (x :: rest) u
                    = x :: runModel conv ai s rest u from by simp [runModel, hp],
                stepModel_full conv ai s rest u (j' + 1) h']
      | true =>
          have hsel : selectPending (x :: rest) = x :: selectPending rest := by
            rw [selectPending_cons, if_pos (by simp [hp])]
          rw [hsel] at h
          cases j with
          | zero => exact absurd h (by simp)
          | succ j' =>
              have h' : (selectPending rest).length ≤ j' := by
                simpa using h
              rw [show stepModel conv ai s (j' + 1) (x :: rest) u
                    = finishItem conv ai s u x
                        :: stepModel conv ai s j' rest (u + convCost conv s x)
                    from by simp [stepModel, hp],
                show runModel conv ai s (x :: rest) u
                    = finishItem conv ai s u x
                        :: runModel conv ai s rest (u + convCost conv s x)
                    from by simp [runModel, hp],
                stepModel_full conv ai s rest (u + convCost conv s x) j' h']

theorem batchState_eq (conv : ConvOracle) (ai : AiOracle) (s : ConversionSettings)
    (q : List QueueItem) (u0 : Nat) (hnd : (q.map (fun it => it.id)).Nodup) (j : Nat) :
    batchState conv ai s q u0 (1 + j) = stepModel conv ai s j q u0 := by
  unfold batchState batchScript
  by_cases he : (selectPending q).isEmpty
  · have hq : selectPending q = [] := List.isEmpty_iff.mp he
    rw [if_pos he, List.take_nil, List.foldl_nil,
      ← map_patch_eq_stepModel conv ai s q u0 j hnd, hq]
    simp [markFn, patchAll_nil]
  · have hndt : (((selectPending q).take j).map (fun it => it.id)).Nodup := by
      refine List.Nodup.sublist (List.Sublist.map _ ?_) hnd
      exact ((selectPending q).take_sublist j).trans (selectPending_sublist q)
    rw [if_neg he, Nat.add_comm 1 j, List.take_succ_cons, List.foldl_cons,
      show applyUpd q (Upd.markProcessing ((selectPending q).map (fun it => it.id)))
        = q.map (markFn ((selectPending q).map (fun it => it.id))) from rfl,
      itemScript_take conv ai s _ u0 j, foldl_itemScript conv ai s _ hndt _ u0,
      List.map_map, ← map_patch_eq_stepModel conv ai s q u0 j hnd]
    rfl

theorem processBatch_as_batchState (conv : ConvOracle) (ai : AiOracle)
    (s : ConversionSettings) (q : List QueueItem) (u0 : Nat) :
    processBatch conv ai s q u0
      = batchState conv ai s q u0 (1 + (selectPending q).length) := by
  unfold processBatch batchState
  rw [List.take_of_length_le]
  unfold batchScript
  by_cases he : (selectPending q).isEmpty
  · rw [if_pos he]; simp
  · rw [if_neg he]
    simp [itemScript_length, Nat.add_comm]

theorem processBatch_eq_runModel (conv : ConvOracle) (ai : AiOracle)
    (s : ConversionSettings) (q : List QueueItem) (u0 : Nat)
    (hnd : (q.map (fun it => it.id)).Nodup) :
    processBatch conv ai s q u0 = runModel conv ai s q u0 := by
  rw [processBatch_as_batchState conv ai s q u0, batchState_eq conv ai s q u0 hnd,
    stepModel_full conv ai s q u0 _ le_rfl]

theorem runModel_getElem (conv : ConvOracle) (ai : AiOracle) (s : ConversionSettings) :
    ∀ (q : List QueueItem) (u k : Nat), ∃ u' : Nat,
      (runModel conv ai s q u)[k]? = (q[k]?).map (fun it =>
        if isPending it then finishItem conv ai s u' it else it)
  | [], u, k => ⟨u, by simp [runModel]⟩
  | x :: rest, u, k => by
      cases hp : isPending x with
      | false =>
          rw [show runModel conv ai s (x :: rest) u
              = x :: runModel conv ai s rest u from by simp [runModel, hp]]
          cases k with
          | zero => exact ⟨u, by simp [hp]⟩
          | succ k' =>
              obtain ⟨u', hu'⟩ := runModel_getElem conv ai s rest u k'
              exact ⟨u', by simpa using hu'⟩
      | true =>
          rw [show runModel conv ai s (x :: rest) u
              = finishItem conv ai s u x
                  :: runModel conv ai s rest (u + convCost conv s x)
              from by simp [runModel, hp]]
          cases k with
          | zero => exact ⟨u, by simp [hp]⟩
          | succ k' =>
              obtain ⟨u', hu'⟩ :=
                runModel_getElem conv ai s rest (u + convCost conv s x) k'
              exact ⟨u', by simpa using hu'⟩

theorem stepModel_getElem (conv : ConvOracle) (ai : AiOracle) (s : ConversionSettings) :
    ∀ (q : List QueueItem) (j u k : Nat), ∃ u' : Nat,
      (stepModel conv ai s j q u)[k]? = (q[k]?).map (fun it =>
        if isPending it then
          (if pendBefore q k < j then finishItem conv ai s u' it
           else { it with status := AppStatus.PROCESSING })
        else it)
  | [], j, u, k => ⟨u, by cases j <;> simp [stepModel]⟩
  | x :: rest, j, u, k => by
      cases hp : isPending x with
      | false =>
          have hcons : stepModel conv ai s j (x :: rest) u
              = x :: stepModel conv ai s j rest u := by
            cases j <;> simp [stepModel, hp]
          rw [hcons]
          cases k with
          | zero => exact ⟨u, by simp [hp]⟩
          | succ k' =>
              obtain ⟨u', hu'⟩ := stepModel_getElem conv ai s rest j u k'
              refine ⟨u', ?_⟩
              simpa [pendBefore, hp] using hu'
      | true =>
          cases j with
          | zero =>
              have hcons : stepModel conv ai s 0 (x :: rest) u
                  = { x with status := AppStatus.PROCESSING }
                      :: stepModel conv ai s 0 rest u := by
                simp [stepModel, hp]
              rw [hcons]
              cases k with
              | zero => exact ⟨u, by simp [hp]⟩
              | succ k' =>
                  obtain ⟨u', hu'⟩ := stepModel_getElem conv ai s rest 0 u k'
                  refine ⟨u', ?_⟩
                  simpa [pendBefore, hp] using hu'
          | succ j' =>
              have hcons : stepModel conv ai s (j' + 1) (x :: rest) u
                  = finishItem conv ai s u x
                      :: stepModel conv ai s j' rest (u + convCost conv s x) := by
                simp [stepModel, hp]
              rw [hcons]
              cases k with
              | zero => exact ⟨u, by simp [hp, pendBefore]⟩
              | succ k' =>
                  obtain ⟨u', hu'⟩ :=
                    stepModel_getElem conv ai s rest j' (u + convCost conv s x) k'
                  refine ⟨u', ?_⟩
                  simp only [List.getElem?_cons_succ, hu',
                    show pendBefore (x :: rest) (k' + 1) = 1 + pendBefore rest k'
                      from by simp [pendBefore, hp],
                    show ∀ p j : Nat, (1 + p < j + 1) = (p < j) from
                      fun p j => propext (by omega)]

theorem applyUpd_frame (q : List QueueItem) (upd : Upd) (k : Nat) (it : QueueItem)
    (hk : q[k]? = some it) (hid : it.id ∉ updIds upd) :
    (applyUpd q upd)[k]? = some it := by
  cases upd with
  | markProcessing ids =>
      have hm : it.id ∉ ids := by simpa [updIds] using hid
      simp [applyUpd, List.getElem?_map, hk, markFn, hm]
  | markComplete i res =>
      have hm : ¬ it.id = i := by simpa [updIds] using hid
      simp [applyUpd, List.getElem?_map, hk, hm]
  | markError i msg =>
      have hm : ¬ it.id = i := by simpa [updIds] using hid
      simp [applyUpd, List.getElem?_map, hk, hm]

theorem itemScript_updIds (conv : ConvOracle) (ai : AiOracle) (s : ConversionSettings) :
    ∀ (l : List QueueItem) (u : Nat), ∀ upd ∈ itemScript conv ai s l u,
      ∀ a ∈ updIds upd, a ∈ l.map (fun it => it.id)
  | [], u, upd, h, a, _ => by simp [itemScript] at h
  | x :: rest, u, upd, h, a, ha => by
      cases hc : conv x.file s with
      | some blob =>
          rw [show itemScript conv ai s (x :: rest) u
              = Upd.markComplete x.id
                  { blob := blob, url := u, size := blob.length,
                    aiDescription := (annotate ai s x.file).1,
                    aiTags := (annotate ai s x.file).2 }
                :: itemScript conv ai s rest (u + 1) from by
              simp [itemScript, hc]] at h
          rcases List.mem_cons.mp h with h1 | h1
          · subst h1
            simp only [updIds, List.mem_singleton] at ha
            simp [ha]
          · have := itemScript_updIds conv ai s rest (u + 1) upd h1 a ha
            simp only [List.map_cons, List.mem_cons]
            exact Or.inr this
      | none =>
          rw [show itemScript conv ai s (x :: rest) u
              = Upd.markError x.id "Failed" :: itemScript conv ai s rest u from by
              simp [itemScript, hc]] at h
          rcases List.mem_cons.mp h with h1 | h1
          · subst h1
            simp only [updIds, List.mem_singleton] at ha
            simp [ha]
          · have := itemScript_updIds conv ai s rest u upd h1 a ha
            simp only [List.map_cons, List.mem_cons]
            exact Or.inr this

theorem batchScript_updIds (conv : ConvOracle) (ai : AiOracle) (s : ConversionSettings)
    (q : List QueueItem) (u0 : Nat) :
    ∀ upd ∈ batchScript conv ai s q u0, ∀ a ∈ updIds upd,
      a ∈ (selectPending q).map (fun it => it.id) := by
  intro upd h a ha
  unfold batchScript at h
  by_cases he : (selectPending q).isEmpty
  · rw [if_pos he] at h; simp at h
  · rw [if_neg he] at h
    rcases List.mem_cons.mp h with h1 | h1
    · subst h1; simpa [updIds] using ha
    · exact itemScript_updIds conv ai s _ u0 upd h1 a ha

theorem foldl_applyUpd_frame :
    ∀ (scr : List Upd) (q' : List QueueItem) (k : Nat) (it : QueueItem),
      q'[k]? = some it → (∀ upd ∈ scr, it.id ∉ updIds upd) →
      (scr.foldl applyUpd q')[k]? = some it
  | [], q', k, it, hk, _ => hk
  | upd :: rest, q', k, it, hk, hall => by
      rw [List.foldl_cons]
      exact foldl_applyUpd_frame rest _ k it
        (applyUpd_frame q' upd k it hk (hall upd (List.mem_cons_self ..)))
        (fun u hu => hall u (List.mem_cons_of_mem _ hu))

theorem mkItems_map_file : ∀ (l : List InputFile) (i0 u0 : Nat),
    (mkItems l i0 u0).map (fun it => it.file) = l
  | [], _, _ => rfl
  | f :: fs, i0, u0 => by simp [mkItems, mkItems_map_file fs]

theorem mkItems_map_id : ∀ (l : List InputFile) (i0 u0 : Nat),
    (mkItems l i0 u0).map (fun it => it.id) = List.range' i0 l.length
  | [], _, _ => rfl
  | f :: fs, i0, u0 => by
      simp [mkItems, mkItems_map_id fs, List.range'_succ]

theorem mkItems_map_preview : ∀ (l : List InputFile) (i0 u0 : Nat),
    (mkItems l i0 u0).map (fun it => it.previewUrl) = List.range' u0 l.length
  | [], _, _ => rfl
  | f :: fs, i0, u0 => by
      simp [mkItems, mkItems_map_preview fs, List.range'_succ]

theorem mkItems_mem : ∀ (l : List InputFile) (i0 u0 : Nat), ∀ it ∈ mkItems l i0 u0,
    it.status = AppStatus.IDLE ∧ it.result = none ∧ it.error = none
      ∧ i0 ≤ it.id ∧ it.id < i0 + l.length
  | [], _, _, it, h => by cases h
  | f :: fs, i0, u0, it, h => by
      rcases List.mem_cons.mp h with h1 | h1
      · subst h1
        refine ⟨rfl, rfl, rfl, le_refl _, by simp⟩
      · obtain ⟨h2, h3, h4, h5, h6⟩ := mkItems_mem fs (i0 + 1) (u0 + 1) it h1
        exact ⟨h2, h3, h4, by omega, by simp only [List.length_cons]; omega⟩

theorem runModel_mem (conv : ConvOracle) (ai : AiOracle) (s : ConversionSettings) :
    ∀ (q : List QueueItem) (u : Nat), ∀ x ∈ runModel conv ai s q u,
      x ∈ q ∨ ∃ it ∈ q, ∃ u' : Nat, isPending it = true ∧ x = finishItem conv ai s u' it
  | [], u, x, h => by simp [runModel] at h
  | y :: rest, u, x, h => by
      cases hp : isPending y with
      | false =>
          rw [show runModel conv ai s (y :: rest) u
              = y :: runModel conv ai s rest u from by simp [runModel, hp]] at h
          rcases List.mem_cons.mp h with h1 | h1
          · exact Or.inl (h1 ▸ List.mem_cons_self ..)
          · rcases runModel_mem conv ai s rest u x h1 with h2 | ⟨it, hit, u', hp', he⟩
            · exact Or.inl (List.mem_cons_of_mem _ h2)
            · exact Or.inr ⟨it, List.mem_cons_of_mem _ hit, u', hp', he⟩
      | true =>
          rw [show runModel conv ai s (y :: rest) u
              = finishItem conv ai s u y
                  :: runModel conv ai s rest (u + convCost conv s y)
              from by simp [runModel, hp]] at h
          rcases List.mem_cons.mp h with h1 | h1
          · exact Or.inr ⟨y, List.mem_cons_self .., u, hp, h1⟩
          · rcases runModel_mem conv ai s rest (u + convCost conv s y) x h1 with
              h2 | ⟨it, hit, u', hp', he⟩
            · exact Or.inl (List.mem_cons_of_mem _ h2)
            · exact Or.inr ⟨it, List.mem_cons_of_mem _ hit, u', hp', he⟩

theorem runModel_map_id (conv : ConvOracle) (ai : AiOracle) (s : ConversionSettings) :
    ∀ (q : List QueueItem) (u : Nat),
      (runModel conv ai s q u).map (fun it => it.id) = q.map (fun it => it.id)
  | [], _ => rfl
  | y :: rest, u => by
      cases hp : isPending y with
      | false =>
          rw [show runModel conv ai s (y :: rest) u
              = y :: runModel conv ai s rest u from by simp [runModel, hp]]
          simp [runModel_map_id conv ai s rest]
      | true =>
          rw [show runModel conv ai s (y :: rest) u
              = finishItem conv ai s u y
                  :: runModel conv ai s rest (u + convCost conv s y)
              from by simp [runModel, hp]]
          simp [runModel_map_id conv ai s rest, finishItem_id]

theorem finishItem_item_inv (conv : ConvOracle) (ai : AiOracle)
    (s : ConversionSettings) (u : Nat) (it : QueueItem)
    (hinv : ItemInv it) (hp : isPending it = true) :
    ItemInv (finishItem conv ai s u it) := by
  have hres : it.result = none := by
    rcases (isPending_iff it).mp hp with hs | hs
    · exact (hinv.2.2 hs).1
    · rcases h : it.result with _ | r
      · rfl
      · have : it.status = AppStatus.COMPLETE := hinv.1.mp (by simp [h])
        rw [this] at hs; cases hs
  cases hc : conv it.file s with
  | some blob =>
      refine ⟨by simp [finishItem, hc], ?_, ?_⟩
      · intro h; simp [finishItem, hc] at h
      · intro h; simp [finishItem, hc] at h
  | none =>
      refine ⟨by simp [finishItem, hc, hres], ?_, ?_⟩
      · intro _; simp [finishItem, hc]
      · intro h; simp [finishItem, hc] at h

theorem reachq_inv : ∀ (q : List QueueItem), ReachQ q →
    (q.map (fun it => it.id)).Nodup ∧ ∀ it ∈ q, ItemInv it := by
  intro q h
  induction h with
  | nil => simp
  | intake q fs i0 u0 hq hfresh ih =>
      constructor
      · rw [List.map_append, mkItems_map_id]
        refine List.Nodup.append ih.1 (List.nodup_range' ..) ?_
        intro a ha hb
        rcases List.mem_map.mp ha with ⟨it, hit, rfl⟩
        have h1 : it.id < i0 := hfresh it hit
        have h2 := (List.mem_range'_1.mp hb).1
        omega
      · intro it hit
        rcases List.mem_append.mp hit with h1 | h1
        · exact ih.2 it h1
        · obtain ⟨hs, hr, he, _, _⟩ := mkItems_mem _ i0 u0 it h1
          exact ⟨by simp [hr, hs], by simp [hs], fun _ => ⟨hr, he⟩⟩
  | remove q id hq ih =>
      constructor
      · exact List.Nodup.sublist (List.Sublist.map _ (List.filter_sublist q)) ih.1
      · intro it hit
        exact ih.2 it (List.mem_of_mem_filter hit)
  | clear q hq ih => simp
  | batch q conv ai s u0 hq ih =>
      constructor
      · rw [processBatch_eq_runModel conv ai s q u0 ih.1, runModel_map_id]
        exact ih.1
      · intro it hit
        rw [processBatch_eq_runModel conv ai s q u0 ih.1] at hit
        rcases runModel_mem conv ai s q u0 it hit with h1 | ⟨y, hy, u', hp, he⟩
        · exact ih.2 it h1
        · exact he ▸ finishItem_item_inv conv ai s u' y (ih.2 y hy) hp

theorem isCompleted_result (it : QueueItem) (h : isCompleted it = true) :
    it.result.isSome = true := by
  cases hs : it.status <;> cases hr : it.result <;>
    simp [isCompleted, hs, hr] at h ⊢

theorem buildArchive_go (s : ConversionSettings) :
    ∀ (l : List QueueItem) (acc : List (String × List Nat)),
      (∀ it ∈ l, it.result.isSome = true) →
      ((l.map (suggestedName s)).Nodup) →
      (∀ it ∈ l, suggestedName s it ∉ acc.map Prod.fst) →
      l.foldl (fun z it =>
        match it.result with
        | some r => zipAdd z (suggestedName s it) r.blob
        | none => z) acc
      = acc ++ l.map (fun it =>
          (suggestedName s it, (it.result.map (fun r => r.blob)).getD []))
  | [], acc, _, _, _ => by simp
  | it :: rest, acc, hres, hnd, hacc => by
      obtain ⟨r, hr⟩ :=
        Option.isSome_iff_exists.mp (hres it (List.mem_cons_self ..))
      have hnotin : suggestedName s it ∉ acc.map Prod.fst :=
        hacc it (List.mem_cons_self ..)
      have hany : (acc.any (fun e => e.1 == suggestedName s it)) = false := by
        rw [List.any_eq_false]
        intro e he
        simp only [beq_iff_eq]
        exact fun heq => hnotin (List.mem_map.mpr ⟨e, he, heq⟩)
      have hzip : zipAdd acc (suggestedName s it) r.blob
          = acc ++ [(suggestedName s it, r.blob)] := by
        unfold zipAdd
        rw [hany]
        simp
      have hnd' : ((rest.map (suggestedName s))).Nodup := by
        simp only [List.map_cons, List.nodup_cons] at hnd; exact hnd.2
      have hhd : suggestedName s it ∉ rest.map (suggestedName s) := by
        simp only [List.map_cons, List.nodup_cons] at hnd; exact hnd.1
      have hacc' : ∀ y ∈ rest,
          suggestedName s y ∉ (acc ++ [(suggestedName s it, r.blob)]).map Prod.fst := by
        intro y hy
        rw [List.map_append, List.mem_append]
        rintro (h1 | h1)
        · exact hacc y (List.mem_cons_of_mem _ hy) h1
        · simp only [List.map_cons, List.map_nil, List.mem_singleton] at h1
          exact hhd (h1 ▸ List.mem_map.mpr ⟨y, hy, rfl⟩)
      rw [List.foldl_cons]
      simp only [hr]
      rw [hzip,
        buildArchive_go s rest (acc ++ [(suggestedName s it, r.blob)])
          (fun y hy => hres y (List.mem_cons_of_mem _ hy)) hnd' hacc',
        List.append_assoc]
      simp [hr]

theorem zipAdd_names (z : List (String × List Nat)) (nm : String)
    (data : List Nat) : ∀ e ∈ zipAdd z nm data, e.1 = nm ∨ e ∈ z := by
  intro e he
  unfold zipAdd at he
  by_cases ha : (z.any (fun e => e.1 == nm)) = true
  · rw [if_pos ha] at he
    rcases List.mem_map.mp he with ⟨e0, he0, heq⟩
    by_cases h0 : (e0.1 == nm) = true
    · rw [if_pos h0] at heq
      exact Or.inl (heq ▸ rfl)
    · rw [if_neg h0] at heq
      exact Or.inr (heq ▸ he0)
  · rw [if_neg ha] at he
    rcases List.mem_append.mp he with h1 | h1
    · exact Or.inr h1
    · rcases List.mem_singleton.mp h1 with rfl
      exact Or.inl rfl

theorem buildArchive_go_names (s : ConversionSettings) (S : List QueueItem) :
    ∀ (l : List QueueItem) (acc : List (String × List Nat)),
      (∀ x ∈ l, x ∈ S) →
      (∀ e ∈ acc, ∃ it ∈ S, e.1 = suggestedName s it) →
      ∀ e ∈ l.foldl (fun z it =>
          match it.result with
          | some r => zipAdd z (suggestedName s it) r.blob
          | none => z) acc,
        ∃ it ∈ S, e.1 = suggestedName s it
  | [], acc, _, hacc, e, he => hacc e he
  | x :: rest, acc, hsub, hacc, e, he => by
      rw [List.foldl_cons] at he
      cases hr : x.result with
      | none =>
          simp only [hr] at he
          exact buildArchive_go_names s S rest acc
            (fun y hy => hsub y (List.mem_cons_of_mem _ hy)) hacc e he
      | some r =>
          simp only [hr] at he
          refine buildArchive_go_names s S rest _
            (fun y hy => hsub y (List.mem_cons_of_mem _ hy)) ?_ e he
          intro e0 he0
          rcases zipAdd_names acc (suggestedName s x) r.blob e0 he0 with h1 | h1
          · exact ⟨x, hsub x (List.mem_cons_self ..), h1⟩
          · exact hacc e0 h1

theorem find?_none_filter (q : List QueueItem) (id : Nat)
    (h : q.find? (fun i => i.id == id) = none) :
    q.filter (fun i => i.id != id) = q := by
  refine List.filter_eq_self.mpr ?_
  intro x hx
  have := List.find?_eq_none.mp h x hx
  simpa using this

theorem removeItem_absent (st : AppState) (id : Nat)
    (h : st.queue.find? (fun i => i.id == id) = none) :
    removeItem id st = st := by
  simp only [removeItem, h, find?_none_filter st.queue id h]

theorem removeItem_found (st : AppState) (id : Nat) (it : QueueItem)
    (h : st.queue.find? (fun i => i.id == id) = some it) :
    removeItem id st
      = { st with queue := st.queue.filter (fun i => i.id != id),
                  releasedUrls := st.releasedUrls ++ itemUrls it } := by
  simp only [removeItem, h]

theorem removeItem_queue (st : AppState) (id : Nat) :
    (removeItem id st).queue = st.queue.filter (fun i => i.id != id) := by
  unfold removeItem
  cases st.queue.find? (fun i => i.id == id) <;> rfl

theorem removeItem_idem (st : AppState) (id : Nat) :
    removeItem id (removeItem id st) = removeItem id st := by
  apply removeItem_absent
  rw [removeItem_queue, List.find?_eq_none]
  intro x hx
  have h2 : x.id ≠ id := by simpa using (List.mem_filter.mp hx).2
  simp [h2]

theorem mkItems_flatMap : ∀ (l : List InputFile) (i0 u0 : Nat),
    (mkItems l i0 u0).flatMap itemUrls
      = (mkItems l i0 u0).map (fun it => it.previewUrl)
  | [], _, _ => rfl
  | f :: fs, i0, u0 => by
      simp [mkItems, itemUrls, mkItems_flatMap fs]

theorem flatMap_perm_of_find? :
    ∀ (q : List QueueItem), (q.map (fun it => it.id)).Nodup →
      ∀ (id : Nat) (it : QueueItem), q.find? (fun i => i.id == id) = some it →
      (q.flatMap itemUrls).Perm
        (itemUrls it ++ (q.filter (fun i => i.id != id)).flatMap itemUrls)
  | [], _, id, it, h => by simp at h
  | x :: rest, hnd, id, it, h => by
      have hnd' : (rest.map (fun i => i.id)).Nodup := by
        simp only [List.map_cons, List.nodup_cons] at hnd; exact hnd.2
      have hx : x.id ∉ rest.map (fun i => i.id) := by
        simp only [List.map_cons, List.nodup_cons] at hnd; exact hnd.1
      by_cases hpx : (x.id == id) = true
      · rw [@List.find?_cons_of_pos QueueItem (fun i => i.id == id) x rest hpx] at h
        injection h with h
        subst h
        have hxid : x.id = id := beq_iff_eq.mp hpx
        have hfil : rest.filter (fun i => i.id != id) = rest := by
          refine List.filter_eq_self.mpr ?_
          intro y hy
          have hyne : y.id ≠ id := by
            intro hcon
            exact hx ((hcon.trans hxid.symm) ▸ List.mem_map.mpr ⟨y, hy, rfl⟩)
          simp [hyne]
        have hfc : (x :: rest).filter (fun i => i.id != id)
            = rest.filter (fun i => i.id != id) := by
          simp [List.filter_cons, hxid]
        rw [hfc, hfil, List.flatMap_cons]
      · rw [@List.find?_cons_of_neg QueueItem (fun i => i.id == id) x rest hpx] at h
        have hperm := flatMap_perm_of_find? rest hnd' id it h
        have hne : x.id ≠ id := by simpa using hpx
        have hfc : (x :: rest).filter (fun i => i.id != id)
            = x :: rest.filter (fun i => i.id != id) := by
          simp [List.filter_cons, hne]
        rw [List.flatMap_cons, hfc, List.flatMap_cons]
        exact (hperm.append_left (itemUrls x)).trans (List.perm_append_comm_assoc ..)

theorem stInv_init : StInv initState := by
  simp [StInv, initState]

theorem stInv_applyOp : ∀ (st : AppState) (op : Op), StInv st → StInv (applyOp st op) := by
  intro st op hinv
  obtain ⟨hnid, hbid, hncr, hbcr, hsub, hperm⟩ := hinv
  cases op with
  | intake files =>
      cases files with
      | none => exact ⟨hnid, hbid, hncr, hbcr, hsub, hperm⟩
      | some fs =>
          show StInv (handleFiles (some fs) st)
          unfold StInv handleFiles
          dsimp only
          refine ⟨?_, ?_, ?_, ?_, ?_, ?_⟩
          · rw [List.map_append, mkItems_map_id]
            refine List.Nodup.append hnid (List.nodup_range' ..) ?_
            intro a ha hb
            rcases List.mem_map.mp ha with ⟨y, hy, rfl⟩
            have h1 : y.id < st.nextId := hbid y hy
            have h2 := (List.mem_range'_1.mp hb).1
            omega
          · intro it hit
            rcases List.mem_append.mp hit with h1 | h1
            · have := hbid it h1; omega
            · exact (mkItems_mem _ _ _ it h1).2.2.2.2
          · rw [mkItems_map_preview]
            refine List.Nodup.append hncr (List.nodup_range' ..) ?_
            intro a ha hb
            have h1 : a < st.nextUrl := hbcr a ha
            have h2 := (List.mem_range'_1.mp hb).1
            omega
          · intro u hu
            rw [mkItems_map_preview] at hu
            rcases List.mem_append.mp hu with h1 | h1
            · have := hbcr u h1; omega
            · have := (List.mem_range'_1.mp h1).2; omega
          · intro it hit u hu
            rcases List.mem_append.mp hit with h1 | h1
            · exact List.mem_append.mpr (Or.inl (hsub it h1 u hu))
            · have hres : it.result = none := (mkItems_mem _ _ _ it h1).2.1
              have : itemUrls it = [it.previewUrl] := by simp [itemUrls, hres]
              rw [this] at hu
              rcases List.mem_singleton.mp hu with rfl
              exact List.mem_append.mpr
                (Or.inr (List.mem_map.mpr ⟨it, h1, rfl⟩))
          · rw [List.flatMap_append, mkItems_flatMap, ← List.append_assoc]
            exact hperm.append_right _
  | remove id =>
      show StInv (removeItem id st)
      cases hfind : st.queue.find? (fun i => i.id == id) with
      | none =>
          rw [removeItem_absent st id hfind]
          exact ⟨hnid, hbid, hncr, hbcr, hsub, hperm⟩
      | some it =>
          rw [removeItem_found st id it hfind]
          refine ⟨?_, ?_, hncr, hbcr, ?_, ?_⟩
          · exact List.Nodup.sublist
              (List.Sublist.map _ (List.filter_sublist st.queue)) hnid
          · intro y hy
            exact hbid y (List.mem_of_mem_filter hy)
          · intro y hy u hu
            exact hsub y (List.mem_of_mem_filter hy) u hu
          · rw [List.append_assoc]
            exact hperm.trans
              ((flatMap_perm_of_find? st.queue hnid id it hfind).append_left _)
  | clear =>
      show StInv (clearQueue st)
      unfold StInv clearQueue
      dsimp only
      refine ⟨by simp, by simp, hncr, hbcr, by simp, ?_⟩
      simpa using hperm

theorem stInv_foldl : ∀ (ops : List Op) (st : AppState),
    StInv st → StInv (ops.foldl applyOp st)
  | [], _, h => h
  | op :: rest, st, h => stInv_foldl rest _ (stInv_applyOp st op h)

theorem stInv_runOps (ops : List Op) : StInv (runOps ops) :=
  stInv_foldl ops initState stInv_init

/-! Claim theorems. -/

/-- C2: `processBatch` selects exactly the items whose status is Idle or
Error, in queue order (the selection is a sublist of the queue, so Complete
and Processing items are never selected), and when the selection is empty
it returns immediately leaving the queue unchanged. -/
theorem selectPending_spec (q : List QueueItem) :
    (selectPending q).Sublist q
    ∧ (∀ it ∈ selectPending q,
        it.status = AppStatus.IDLE ∨ it.status = AppStatus.ERROR)
    ∧ (∀ it ∈ q, (it.status = AppStatus.IDLE ∨ it.status = AppStatus.ERROR) →
        it ∈ selectPending q)
    ∧ (selectPending q = [] →
        ∀ (conv : ConvOracle) (ai : AiOracle) (s : ConversionSettings) (u0 : Nat),
          processBatch conv ai s q u0 = q) := by
  refine ⟨selectPending_sublist q, ?_, ?_, ?_⟩
  · intro it h
    exact (isPending_iff it).mp (List.mem_filter.mp h).2
  · intro it h hs
    exact List.mem_filter.mpr ⟨h, (isPending_iff it).mpr hs⟩
  · intro hq conv ai s u0
    unfold processBatch batchScript
    rw [hq]
    simp

/-- Witness for C2: on the three-Idle-item queue the whole queue is
selected, and on a queue holding a single Complete item a batch run is a
no-op. -/
theorem selectPending_spec_witness :
    (itemIdle ∈ selectPending [itemDone, itemIdle])
    ∧ processBatch convAll aiFail sJpeg [itemDone] 0 = [itemDone] := by
  constructor
  · exact (selectPending_spec [itemDone, itemIdle]).2.2.1 itemIdle (by decide) (by decide)
  · exact (selectPending_spec [itemDone]).2.2.2 (by decide) convAll aiFail sJpeg 0

/-- C10: a batch run only touches items whose id is in its pending
snapshot: any queue entry (also one appended after the snapshot was taken)
whose id is outside the snapshot survives every update of the run
unchanged at its position, and in particular (for a queue with distinct
ids) every item that was Complete at the start is unchanged. -/
theorem processBatch_frame (conv : ConvOracle) (ai : AiOracle)
    (s : ConversionSettings) (q : List QueueItem) (u0 : Nat) :
    (∀ (r : List QueueItem) (k : Nat) (it : QueueItem),
        r[k]? = some it → it.id ∉ (selectPending q).map (fun x => x.id) →
        ((batchScript conv ai s q u0).foldl applyUpd r)[k]? = some it)
    ∧ ((q.map (fun it => it.id)).Nodup →
        ∀ (k : Nat) (it : QueueItem), q[k]? = some it →
          it.status = AppStatus.COMPLETE →
          (processBatch conv ai s q u0)[k]? = some it) := by
  constructor
  · intro r k it hk hid
    exact foldl_applyUpd_frame _ r k it hk
      (fun upd hu ha => hid (batchScript_updIds conv ai s q u0 upd hu _ ha))
  · intro hnd k it hk hs
    have hmem : it ∈ q := mem_of_getElem?_eq q k it hk
    have hp : isPending it = false := by simp [isPending, hs]
    have hidn := not_pending_id_not_mem q hnd it hmem hp
    exact foldl_applyUpd_frame _ q k it hk
      (fun upd hu ha => hidn (batchScript_updIds conv ai s q u0 upd hu _ ha))

/-- Witness for C10: in a queue with a Complete item ahead of an Idle one,
the Complete item is untouched by the batch run; likewise an entry of a
later queue value whose id is outside the original snapshot. -/
theorem processBatch_frame_witness :
    (processBatch convAll aiFail sJpeg qMix 0)[0]? = some itemDone
    ∧ ((batchScript convAll aiFail sJpeg qMix 0).foldl applyUpd
        (qMix ++ [{ itemIdle with id := 9 }]))[2]? = some { itemIdle with id := 9 } := by
  constructor
  · exact (processBatch_frame convAll aiFail sJpeg qMix 0).2 (by decide) 0 itemDone
      (by decide) (by decide)
  · exact (processBatch_frame convAll aiFail sJpeg qMix 0).1
      (qMix ++ [{ itemIdle with id := 9 }]) 2 { itemIdle with id := 9 }
      (by decide) (by decide)

/-- C1: per-item failure isolation of a batch run — every selected item
whose conversion throws ends up Error with the generic message "Failed",
every selected item whose conversion succeeds ends up Complete, and
unselected items are untouched; one item's failure never aborts the
batch. -/
theorem processBatch_failure_isolation (conv : ConvOracle) (ai : AiOracle)
    (s : ConversionSettings) (q : List QueueItem) (u0 : Nat)
    (hnd : (q.map (fun it => it.id)).Nodup) :
    (∀ (k : Nat) (it : QueueItem), q[k]? = some it → isPending it = true →
        conv it.file s = none →
        ((processBatch conv ai s q u0)[k]?.map (fun j => (j.status, j.error)))
          = some (AppStatus.ERROR, some "Failed"))
    ∧ (∀ (k : Nat) (it : QueueItem), q[k]? = some it → isPending it = true →
        (conv it.file s).isSome = true →
        ((processBatch conv ai s q u0)[k]?.map (fun j => j.status))
          = some AppStatus.COMPLETE)
    ∧ (∀ (k : Nat) (it : QueueItem), q[k]? = some it → isPending it = false →
        (processBatch conv ai s q u0)[k]? = some it) := by
  refine ⟨?_, ?_, ?_⟩
  · intro k it hk hp hc
    obtain ⟨u', hu'⟩ := runModel_getElem conv ai s q u0 k
    rw [processBatch_eq_runModel conv ai s q u0 hnd, hu', hk]
    simp [hp, finishItem, hc]
  · intro k it hk hp hc
    obtain ⟨b, hb⟩ := Option.isSome_iff_exists.mp hc
    obtain ⟨u', hu'⟩ := runModel_getElem conv ai s q u0 k
    rw [processBatch_eq_runModel conv ai s q u0 hnd, hu', hk]
    simp [hp, finishItem, hb]
  · intro k it hk hp
    obtain ⟨u', hu'⟩ := runModel_getElem conv ai s q u0 k
    rw [processBatch_eq_runModel conv ai s q u0 hnd, hu', hk]
    simp [hp]

/-- Witness for C1: on the three-item intake queue whose middle file is
corrupted, the failing item is Error with message "Failed" and the first
item is Complete. -/
theorem processBatch_failure_isolation_witness :
    ((processBatch convSel aiFail sJpeg qW 0)[1]?.map (fun j => (j.status, j.error)))
      = some (AppStatus.ERROR, some "Failed")
    ∧ ((processBatch convSel aiFail sJpeg qW 0)[0]?.map (fun j => j.status))
      = some AppStatus.COMPLETE := by
  constructor
  · exact (processBatch_failure_isolation convSel aiFail sJpeg qW 0 (by decide)).1 1
      { id := 1, file := fileBad, previewUrl := 11, originalSize := 2,
        status := AppStatus.IDLE }
      (by decide) (by decide) (by decide)
  · exact (processBatch_failure_isolation convSel aiFail sJpeg qW 0 (by decide)).2.1 0
      { id := 0, file := fileA, previewUrl := 10, originalSize := 3,
        status := AppStatus.IDLE }
      (by decide) (by decide) (by decide)

/-- C5: AI-annotation failure isolation — a selected item whose conversion
succeeds while `useAIAnalysis` is enabled and whose annotation call fails
is still marked Complete, with empty description and tags. -/
theorem ai_failure_isolation (conv : ConvOracle) (ai : AiOracle)
    (s : ConversionSettings) (q : List QueueItem) (u0 : Nat)
    (hnd : (q.map (fun it => it.id)).Nodup) (k : Nat) (it : QueueItem)
    (blob : List Nat) (hk : q[k]? = some it) (hp : isPending it = true)
    (hc : conv it.file s = some blob) (hai : ai it.file = none)
    (hu : s.useAIAnalysis = true) :
    ((processBatch conv ai s q u0)[k]?.map
        (fun j => (j.status, j.result.map (fun r => (r.aiDescription, r.aiTags)))))
      = some (AppStatus.COMPLETE, some ("", [])) := by
  obtain ⟨u', hu'⟩ := runModel_getElem conv ai s q u0 k
  rw [processBatch_eq_runModel conv ai s q u0 hnd, hu', hk]
  simp [hp, finishItem, hc, annotate, hu, hai]

/-- Witness for C5: with AI analysis on and an always-failing AI oracle,
the first intake item converts and completes with empty annotation. -/
theorem ai_failure_isolation_witness :
    ((processBatch convAll aiFail sJpegAI qW 0)[0]?.map
        (fun j => (j.status, j.result.map (fun r => (r.aiDescription, r.aiTags)))))
      = some (AppStatus.COMPLETE, some ("", [])) :=
  ai_failure_isolation convAll aiFail sJpegAI qW 0 (by decide) 0
    { id := 0, file := fileA, previewUrl := 10, originalSize := 3,
      status := AppStatus.IDLE }
    [1, 2, 3] (by decide) (by decide) (by decide) (by decide) (by decide)

/-- C3: every selected item is marked Processing by the first `setQueue`
update, before any conversion's terminal update; after the `j`-th terminal
update exactly the first `j` selected items (in selection order) have
reached their terminal status while later selected items are still
Processing; and the run ends after the last selected item's update. -/
theorem processBatch_marking_order (conv : ConvOracle) (ai : AiOracle)
    (s : ConversionSettings) (q : List QueueItem) (u0 : Nat)
    (hnd : (q.map (fun it => it.id)).Nodup) :
    (∀ (k : Nat) (it : QueueItem), q[k]? = some it →
        (batchState conv ai s q u0 1)[k]?
          = some (if isPending it then { it with status := AppStatus.PROCESSING }
                  else it))
    ∧ (∀ (j k : Nat) (it : QueueItem), q[k]? = some it → isPending it = true →
        ((batchState conv ai s q u0 (1 + j))[k]?.map (fun x => x.status))
          = some (if pendBefore q k < j then
                    (match conv it.file s with
                     | some _ => AppStatus.COMPLETE
                     | none => AppStatus.ERROR)
                  else AppStatus.PROCESSING))
    ∧ batchState conv ai s q u0 (1 + (selectPending q).length)
        = processBatch conv ai s q u0 := by
  refine ⟨?_, ?_, ?_⟩
  · intro k it hk
    have h0 : batchState conv ai s q u0 1 = stepModel conv ai s 0 q u0 :=
      batchState_eq conv ai s q u0 hnd 0
    obtain ⟨u', hs⟩ := stepModel_getElem conv ai s q 0 u0 k
    rw [h0, hs, hk]
    cases hp : isPending it <;> simp [hp]
  · intro j k it hk hp
    rw [batchState_eq conv ai s q u0 hnd j]
    obtain ⟨u', hs⟩ := stepModel_getElem conv ai s q j u0 k
    rw [hs, hk]
    by_cases hj : pendBefore q k < j
    · cases hc : conv it.file s <;> simp [hp, hj, finishItem, hc]
    · simp [hp, hj]
  · exact (processBatch_as_batchState conv ai s q u0).symm

/-- Witness for C3: on the three-item intake queue, after the marking
update the second item is Processing; after the first terminal update the
first item is Complete while the second is still Processing; after the
second it is Error. -/
theorem processBatch_marking_order_witness :
    ((batchState convSel aiFail sJpeg qW 0 1)[1]?
      = some { id := 1, file := fileBad, previewUrl := 11, originalSize := 2,
               status := AppStatus.PROCESSING })
    ∧ ((batchState convSel aiFail sJpeg qW 0 (1 + 1))[1]?.map (fun x => x.status))
      = some AppStatus.PROCESSING
    ∧ ((batchState convSel aiFail sJpeg qW 0 (1 + 2))[1]?.map (fun x => x.status))
      = some AppStatus.ERROR := by
  refine ⟨?_, ?_, ?_⟩
  · exact (processBatch_marking_order convSel aiFail sJpeg qW 0 (by decide)).1 1
      { id := 1, file := fileBad, previewUrl := 11, originalSize := 2,
        status := AppStatus.IDLE } (by decide)
  · exact (processBatch_marking_order convSel aiFail sJpeg qW 0 (by decide)).2.1 1 1
      { id := 1, file := fileBad, previewUrl := 11, originalSize := 2,
        status := AppStatus.IDLE } (by decide) (by decide)
  · exact (processBatch_marking_order convSel aiFail sJpeg qW 0 (by decide)).2.1 2 1
      { id := 1, file := fileBad, previewUrl := 11, originalSize := 2,
        status := AppStatus.IDLE } (by decide) (by decide)

/-- C4 counterexample: an Idle item whose first batch run fails and whose
retry succeeds ends up Complete with `result` present but with the stale
`errorMessage` "Failed" still present — refuting "errorMessage is present
iff status is Error" (the Complete update spreads the old item and never
clears `error`). -/
theorem retry_stale_error_counterexample :
    ((processBatch convAll aiFail sJpeg
        (processBatch convNone aiFail sJpeg (mkItems [fileA] 0 0) 0) 1).map
      (fun it => (it.status, it.error, it.result.isSome)))
      = [(AppStatus.COMPLETE, some "Failed", true)] := by decide

/-- C4 amended: on every reachable queue, `result` is present iff the item
is Complete; an Error item always carries an `errorMessage`; and an Idle
item carries neither field.  (Unlike the original claim, `errorMessage` is
not exclusive with `result`: once set it survives a successful retry into
the Complete state.) -/
theorem result_error_invariant_amended :
    ∀ (q : List QueueItem), ReachQ q → ∀ it ∈ q,
      (it.result.isSome = true ↔ it.status = AppStatus.COMPLETE)
      ∧ (it.status = AppStatus.ERROR → it.error.isSome = true)
      ∧ (it.status = AppStatus.IDLE → it.result = none ∧ it.error = none) :=
  fun q h => (reachq_inv q h).2

/-- Witness for the amended C4: the reachable one-item queue whose batch
run failed satisfies the invariant at its Error item. -/
theorem result_error_invariant_amended_witness :
    (({ id := 0, file := fileA, previewUrl := 0, originalSize := 3,
        status := AppStatus.ERROR, result := none,
        error := some "Failed" } : QueueItem).result.isSome = true
      ↔ ({ id := 0, file := fileA, previewUrl := 0, originalSize := 3,
           status := AppStatus.ERROR, result := none,
           error := some "Failed" } : QueueItem).status = AppStatus.COMPLETE) := by
  have h1 : ReachQ ([] ++ mkItems ([fileA].filter isImageFile) 0 0) :=
    ReachQ.intake [] [fileA] 0 0 ReachQ.nil (by intro it hit; cases hit)
  have h2 : ReachQ (mkItems [fileA] 0 0) := by
    have he : ([] ++ mkItems ([fileA].filter isImageFile) 0 0)
        = mkItems [fileA] 0 0 := by decide
    rw [he] at h1
    exact h1
  have h3 : ReachQ (processBatch convNone aiFail sJpeg (mkItems [fileA] 0 0) 0) :=
    ReachQ.batch _ convNone aiFail sJpeg 0 h2
  exact (result_error_invariant_amended _ h3 _ (by decide)).1

/-- C9: intake keeps exactly the files with an image MIME type, appending
each as a fresh Idle item (no result, no error) at the end of the queue,
in input order; non-image files are dropped without any other effect, and
a null file list leaves the state untouched — intake never fails. -/
theorem intake_filtering :
    (∀ st : AppState, handleFiles none st = st)
    ∧ (∀ (fs : List InputFile) (st : AppState),
        (handleFiles (some fs) st).queue.take st.queue.length = st.queue
        ∧ ((handleFiles (some fs) st).queue.drop st.queue.length).map
            (fun it => it.file) = fs.filter isImageFile
        ∧ ∀ it ∈ (handleFiles (some fs) st).queue.drop st.queue.length,
            it.status = AppStatus.IDLE ∧ it.result = none ∧ it.error = none) := by
  constructor
  · intro st; rfl
  · intro fs st
    have hq : (handleFiles (some fs) st).queue
        = st.queue ++ mkItems (fs.filter isImageFile) st.nextId st.nextUrl := rfl
    refine ⟨?_, ?_, ?_⟩
    · rw [hq, List.take_left]
    · rw [hq, List.drop_left, mkItems_map_file]
    · rw [hq, List.drop_left]
      intro it hit
      obtain ⟨h1, h2, h3, _, _⟩ := mkItems_mem _ _ _ it hit
      exact ⟨h1, h2, h3⟩

/-- Witness for C9: feeding two images and a text file into the empty
state enqueues exactly the two images, and a null file list is the
identity. -/
theorem intake_filtering_witness :
    ((handleFiles (some [fileA, fileTxt, fileC]) initState).queue.drop
        initState.queue.length).map (fun it => it.file) = [fileA, fileC]
    ∧ handleFiles none initState = initState := by
  constructor
  · calc ((handleFiles (some [fileA, fileTxt, fileC]) initState).queue.drop
          initState.queue.length).map (fun it => it.file)
        = [fileA, fileTxt, fileC].filter isImageFile :=
          (intake_filtering.2 [fileA, fileTxt, fileC] initState).2.1
      _ = [fileA, fileC] := by decide
  · exact intake_filtering.1 initState

/-- C8: when no two completed items share an entry name, the archive built
from the completed items has exactly one entry per completed item, in
order, with the suggested name and the result's bytes; on a name collision
the later item's bytes silently overwrite the earlier entry. -/
theorem archive_contents (s : ConversionSettings) (q : List QueueItem)
    (hnd : ((q.filter isCompleted).map (suggestedName s)).Nodup) :
    buildArchive s (q.filter isCompleted)
      = (q.filter isCompleted).map (fun it =>
          (suggestedName s it, (it.result.map (fun r => r.blob)).getD []))
    ∧ buildArchive sJpeg [itemDupA, itemDupB]
      = [("dup_converted.jpeg", [2])] := by
  constructor
  · have h := buildArchive_go s (q.filter isCompleted) []
      (fun it hit => isCompleted_result it (List.mem_filter.mp hit).2)
      hnd (by simp)
    simpa [buildArchive] using h
  · decide

/-- Witness for C8: a queue holding two completed items with distinct base
names archives to exactly their two named blobs, in order. -/
theorem archive_contents_witness :
    buildArchive sJpeg ([itemDone, itemDupA].filter isCompleted)
      = [("photo_converted.jpeg", [1, 2, 3]), ("dup_converted.jpeg", [1])] := by
  calc buildArchive sJpeg ([itemDone, itemDupA].filter isCompleted)
      = ([itemDone, itemDupA].filter isCompleted).map (fun it =>
          (suggestedName sJpeg it, (it.result.map (fun r => r.blob)).getD [])) :=
        (archive_contents sJpeg [itemDone, itemDupA] (by decide)).1
    _ = [("photo_converted.jpeg", [1, 2, 3]), ("dup_converted.jpeg", [1])] := by
        decide

/-- C7 counterexample: for JPEG output the extension produced by the code
is the MIME subtype "jpeg", not the claimed "jpg" — the suggested download
filename for a completed `photo.png` is `photo_converted.jpeg`. -/
theorem jpeg_extension_counterexample :
    getExtension sJpeg = "jpeg"
    ∧ "jpeg" ≠ "jpg"
    ∧ downloadFile sJpeg itemDone = some (41, "photo_converted.jpeg") := by decide

/-- C7 amended: the download extension is the MIME subtype verbatim —
JPEG→jpeg (not jpg), PNG→png, WEBP→webp, AVIF→avif — with the single
special case `svg+xml`→svg; a completed item downloads as
`{base}_converted.{ext}` where base is the original name up to its first
dot; the batch archive is named `cleave_batch.zip` and every entry of it
carries the suggested name of a completed item. -/
theorem download_naming_amended :
    (∀ s : ConversionSettings, s.format = "image/jpeg" → getExtension s = "jpeg")
    ∧ (∀ s : ConversionSettings, s.format = "image/png" → getExtension s = "png")
    ∧ (∀ s : ConversionSettings, s.format = "image/webp" → getExtension s = "webp")
    ∧ (∀ s : ConversionSettings, s.format = "image/avif" → getExtension s = "avif")
    ∧ (∀ s : ConversionSettings, s.format = "image/svg+xml" → getExtension s = "svg")
    ∧ (∀ (s : ConversionSettings) (it : QueueItem) (r : ProcessedResult),
        it.result = some r →
        downloadFile s it
          = some (r.url, baseName it.file.name ++ "_converted." ++ getExtension s))
    ∧ (∀ (s : ConversionSettings) (q : List QueueItem)
        (arch : List (String × List Nat)) (nm : String),
        downloadAll s q = some (arch, nm) →
        nm = "cleave_batch.zip"
        ∧ ∀ e ∈ arch, ∃ it ∈ q, isCompleted it = true ∧ e.1 = suggestedName s it) := by
  refine ⟨?_, ?_, ?_, ?_, ?_, ?_, ?_⟩
  · intro s h; unfold getExtension; rw [h]; decide
  · intro s h; unfold getExtension; rw [h]; decide
  · intro s h; unfold getExtension; rw [h]; decide
  · intro s h; unfold getExtension; rw [h]; decide
  · intro s h; unfold getExtension; rw [h]; decide
  · intro s it r hr
    simp [downloadFile, hr, suggestedName]
  · intro s q arch nm h
    unfold downloadAll at h
    by_cases he : ((q.filter isCompleted).isEmpty) = true
    · rw [if_pos he] at h; cases h
    · rw [if_neg he] at h
      injection h with h1
      injection h1 with harch hnm
      refine ⟨hnm.symm, ?_⟩
      intro e hearch
      have := buildArchive_go_names s (q.filter isCompleted) (q.filter isCompleted)
        [] (fun x hx => hx) (by simp) e (by rw [← harch] at hearch; exact hearch)
      rcases this with ⟨it, hit, hname⟩
      exact ⟨it, (List.mem_filter.mp hit).1, (List.mem_filter.mp hit).2, hname⟩

/-- Witness for the amended C7: PNG settings give extension `png`, and the
completed `photo.png` item downloads as `photo_converted.jpeg` under the
default JPEG settings. -/
theorem download_naming_amended_witness :
    getExtension { sJpeg with format := "image/png" } = "png"
    ∧ downloadFile sJpeg itemDone = some (41, "photo_converted.jpeg") := by
  constructor
  · exact download_naming_amended.2.1 _ rfl
  · have h := download_naming_amended.2.2.2.2.2.1 sJpeg itemDone
      { blob := [1, 2, 3], url := 41, size := 3, aiDescription := "", aiTags := [] }
      rfl
    rw [h]; decide

/-- C6: resource release.  Removing an item releases exactly its handles —
the preview handle and, when a result is present, the output handle;
removing an absent id releases nothing and leaves the state unchanged
(idempotent); clearing releases every queued item's handles; and across
any sequence of intake/remove/clear operations the created handles are
exactly the released handles plus the handles of the still-queued items —
so releases never double up and their count equals the count of creations
for removed items. -/
theorem handle_release_ledger :
    (∀ ops : List Op,
        ((runOps ops).createdUrls).Perm
          ((runOps ops).releasedUrls ++ (runOps ops).queue.flatMap itemUrls)
        ∧ ((runOps ops).releasedUrls).length
            + ((runOps ops).queue.flatMap itemUrls).length
            = ((runOps ops).createdUrls).length
        ∧ ((runOps ops).releasedUrls).Nodup)
    ∧ (∀ (st : AppState) (id : Nat),
        st.queue.find? (fun i => i.id == id) = none → removeItem id st = st)
    ∧ (∀ (st : AppState) (id : Nat),
        removeItem id (removeItem id st) = removeItem id st)
    ∧ (∀ (st : AppState) (id : Nat) (it : QueueItem),
        st.queue.find? (fun i => i.id == id) = some it →
        (removeItem id st).releasedUrls
            = st.releasedUrls ++ it.previewUrl
                :: (match it.result with
                    | some r => [r.url]
                    | none => [])
        ∧ (removeItem id st).queue = st.queue.filter (fun i => i.id != id))
    ∧ (∀ st : AppState, (clearQueue st).queue = []
        ∧ (clearQueue st).releasedUrls
            = st.releasedUrls ++ st.queue.flatMap itemUrls) := by
  refine ⟨?_, removeItem_absent, removeItem_idem, ?_, ?_⟩
  · intro ops
    obtain ⟨_, _, hncr, _, _, hperm⟩ := stInv_runOps ops
    refine ⟨hperm, ?_, ?_⟩
    · have := hperm.length_eq
      rw [List.length_append] at this
      omega
    · exact (hperm.nodup hncr).of_append_left
  · intro st id it h
    rw [removeItem_found st id it h]
    exact ⟨rfl, rfl⟩
  · intro st
    exact ⟨rfl, rfl⟩

/-- Witness for C6: after enqueueing two images (one dropped text file),
removing one and clearing, every created handle is accounted for:
2 creations, 2 releases, none still live; and removing an absent id is a
no-op on the initial state. -/
theorem handle_release_ledger_witness :
    ((runOps [Op.intake (some [fileA, fileTxt, fileC]), Op.remove 0,
        Op.clear]).releasedUrls).length
      + ((runOps [Op.intake (some [fileA, fileTxt, fileC]), Op.remove 0,
          Op.clear]).queue.flatMap itemUrls).length
      = ((runOps [Op.intake (some [fileA, fileTxt, fileC]), Op.remove 0,
          Op.clear]).createdUrls).length
    ∧ removeItem 99 initState = initState := by
  constructor
  · exact (handle_release_ledger.1
      [Op.intake (some [fileA, fileTxt, fileC]), Op.remove 0, Op.clear]).2.1
  · exact handle_release_ledger.2.1 initState 99 (by decide)

end ConvertSimply
